import Mathlib

/-!
Verification development for the tealdeer tldr client (src/src/main.rs plus
the spec of its cache, tokenizer and formatter modules, whose source files
are not part of the excerpt).  Pure shallow embedding: strings are Lean
Strings, the filesystem is an explicit list of (subdirectory, filename)
pairs, effects such as process exit are reified as outcome values.
-/

namespace Tealdeer

deriving instance DecidableEq for Except

/-- Error taxonomy. Modelled from the spec: the error module (src/error.rs) is
not part of the excerpt; section 7 of the spec lists the error kinds. -/
inductive TealdeerError
  | NetworkError (msg : String)
  | ArchiveError (msg : String)
  | FilesystemError (msg : String)
  | FormatError (msg : String)
  | ConfigError (msg : String)
deriving DecidableEq, Repr

/-- Boolean test that the char list `m` is an initial segment of `d`. -/
def chPre : List Char → List Char → Bool
  | [], _ => true
  | _ :: _, [] => false
  | a :: as, b :: bs => a == b && chPre as bs

/-- Heading marker of the page dialect. -/
def headingChars : List Char := ['#', ' ']

/-- Description (quote-style) marker of the page dialect. -/
def descChars : List Char := ['>', ' ']

/-- Example-description (list) marker of the page dialect. -/
def listChars : List Char := ['-', ' ']

/-- Fenced code-block marker of the page dialect (three backticks). -/
def fenceChars : List Char := ['\x60', '\x60', '\x60']

/-- A line consisting of the fence marker alone. -/
def fenceLine : String := String.mk fenceChars

/-- A marker followed by a text payload, as one source line. -/
def markLine (m : List Char) (t : String) : String := String.mk (m ++ t.data)

/-- The payload of a marked line: everything after the two marker characters. -/
def afterMark (l : String) : String := String.mk (l.data.drop 2)

/-- Sub-spans of a command template line.  Modelled from the spec: the
tokenizer module (src/tokenizer.rs) is not part of the excerpt; section 3 of
the spec gives the CommandTemplate span structure. -/
inductive Span
  | Literal (s : String)
  | Placeholder (s : String)
deriving DecidableEq, Repr

/-- A literal span for a nonempty char list, nothing for an empty one. -/
def litSpan (cs : List Char) : List Span :=
  if cs.isEmpty then [] else [Span.Literal (String.mk cs)]

/-- Span scanner for a command template line.  Modelled from the spec: the
tokenizer module is not part of the excerpt; section 4.4 of the spec says
double-open-brace starts a placeholder, double-close-brace ends it, and an
unterminated open is kept leniently as literal text.  The first argument is
`none` while scanning literal text (second argument: the pending literal,
reversed order not needed since we append) and `some lit` while inside a
candidate placeholder whose preceding literal text is `lit` (second argument:
the placeholder text scanned so far). -/
def goSpans : Option (List Char) → List Char → List Char → List Span
  | none, acc, [] => litSpan acc
  | none, acc, '{' :: '{' :: rest => goSpans (some acc) [] rest
  | none, acc, c :: rest => goSpans none (acc ++ [c]) rest
  | some lit, inner, [] => [Span.Literal (String.mk (lit ++ '{' :: '{' :: inner))]
  | some lit, inner, '}' :: '}' :: rest =>
      litSpan lit ++ Span.Placeholder (String.mk inner) :: goSpans none [] rest
  | some lit, inner, c :: rest => goSpans (some lit) (inner ++ [c]) rest

/-- Parse a command template line into its literal and placeholder spans. -/
def parseSpans (s : String) : List Span := goSpans none [] s.data

/-- The closed token set of the page dialect.  Modelled from the spec: the
tokenizer module is not part of the excerpt; section 3 of the spec gives the
LineToken variants. -/
inductive LineToken
  | Heading (text : String)
  | Description (text : String)
  | ExampleDescription (text : String)
  | CommandTemplate (spans : List Span)
  | Blank
deriving DecidableEq, Repr

/-- Tokenizer phases.  Modelled from the spec: section 4.4 lists the states
ReadingHeading, ReadingDescription, ReadingExamples, Done. -/
inductive Phase
  | ReadingHeading
  | ReadingDescription
  | ReadingExamples
  | Done
deriving DecidableEq, Repr

/-- Full tokenizer state: the phase plus whether the scanner is inside a
fenced block.  Modelled from the spec, section 4.4. -/
structure TokState where
  phase : Phase
  inFence : Bool
deriving DecidableEq, Repr

/-- One step of the tokenizer on one source line.  Modelled from the spec:
the tokenizer module is not part of the excerpt; section 4.4 of the spec
drives transitions by the leading marker of each line.  Inside a fence the
line is template content unless it is the closing marker; outside, a blank
line passes through as a Blank token without changing state; the first
non-blank line must carry the heading marker or the step fails with
FormatError; afterwards heading, quote, list and fence markers produce the
corresponding tokens, and an unmarked line is description text. -/
def step (st : TokState) (l : String) : Except TealdeerError (TokState × List LineToken) :=
  if st.inFence then
    if chPre fenceChars l.data then .ok ({ st with inFence := false }, [])
    else .ok (st, [.CommandTemplate (parseSpans l)])
  else if l.data.isEmpty then .ok (st, [.Blank])
  else if chPre headingChars l.data then
    .ok ({ st with phase := .ReadingDescription }, [.Heading (afterMark l)])
  else if st.phase = .ReadingHeading then .error (.FormatError "expected page title")
  else if chPre descChars l.data then
    .ok ({ st with phase := .ReadingDescription }, [.Description (afterMark l)])
  else if chPre listChars l.data then
    .ok ({ st with phase := .ReadingExamples }, [.ExampleDescription (afterMark l)])
  else if chPre fenceChars l.data then .ok ({ st with inFence := true }, [])
  else .ok (st, [.Description l])

/-- Run the tokenizer over a list of source lines from a given state,
collecting the emitted tokens in order. -/
def runTok : TokState → List String → Except TealdeerError (TokState × List LineToken)
  | st, [] => .ok (st, [])
  | st, l :: ls =>
    match step st l with
    | .error e => .error e
    | .ok (st1, ts) =>
      match runTok st1 ls with
      | .error e => .error e
      | .ok (st2, ts2) => .ok (st2, ts ++ ts2)

/-- Tokenize a whole page.  Modelled from the spec, section 4.4: start in
ReadingHeading outside any fence; reaching end-of-input inside an
unterminated fenced block fails with FormatError, otherwise end-of-input
transitions to Done. -/
def tokenize (ls : List String) : Except TealdeerError (TokState × List LineToken) :=
  match runTok ⟨.ReadingHeading, false⟩ ls with
  | .error e => .error e
  | .ok (st, ts) =>
    if st.inFence then .error (.FormatError "unterminated code block")
    else .ok (⟨.Done, false⟩, ts)

/-- Terminal colors, as in the ansi-term collaborator. -/
inductive Color
  | Black | Red | Green | Yellow | Blue | Purple | Cyan | White
deriving DecidableEq, Repr

/-- ANSI SGR code of a foreground color. -/
def colorCodeChars : Color → List Char
  | .Black => ['3', '0']
  | .Red => ['3', '1']
  | .Green => ['3', '2']
  | .Yellow => ['3', '3']
  | .Blue => ['3', '4']
  | .Purple => ['3', '5']
  | .Cyan => ['3', '6']
  | .White => ['3', '7']

/-- Style of one token kind.  Modelled from the spec: the config module is
not part of the excerpt; section 3 of the spec gives the StyleSheet entry as
foreground color, bold flag and underline flag. -/
structure LineStyle where
  fg : Option Color
  bold : Bool
  underline : Bool
deriving DecidableEq, Repr

/-- A control sequence: ESC, open bracket, the code, and a final m. -/
def csiL (code : List Char) : List Char := '\x1b' :: '[' :: (code ++ ['m'])

/-- Control codes emitted before a styled text. -/
def preChars (s : LineStyle) : List Char :=
  (match s.fg with
   | some c => csiL (colorCodeChars c)
   | none => []) ++
  (if s.bold then csiL ['1'] else []) ++
  (if s.underline then csiL ['4'] else [])

/-- Control codes emitted after a styled text (reset, if anything was set). -/
def postChars (s : LineStyle) : List Char :=
  if s.fg.isSome || s.bold || s.underline then csiL ['0'] else []

/-- Wrap a text in the control codes of a style when styling is enabled,
and leave it untouched otherwise. -/
def styleWrap (s : LineStyle) (enabled : Bool) (cs : List Char) : List Char :=
  if enabled then preChars s ++ cs ++ postChars s else cs

/-- Style sheet: one style per token kind, plus one for placeholder spans.
Modelled from the spec: the config module is not part of the excerpt;
section 3 of the spec makes the sheet a total map on the closed token set. -/
structure StyleSheet where
  heading : LineStyle
  description : LineStyle
  exampleDesc : LineStyle
  commandLiteral : LineStyle
  placeholder : LineStyle
deriving DecidableEq, Repr

/-- Characters of one span under a sheet. -/
def spanChars (sheet : StyleSheet) (enabled : Bool) : Span → List Char
  | .Literal s => styleWrap sheet.commandLiteral enabled s.data
  | .Placeholder s => styleWrap sheet.placeholder enabled s.data

/-- Characters of a span sequence under a sheet. -/
def spanCharsAll (sheet : StyleSheet) (enabled : Bool) : List Span → List Char
  | [] => []
  | sp :: sps => spanChars sheet enabled sp ++ spanCharsAll sheet enabled sps

/-- Characters of one output line for one token.  Modelled from the spec:
the formatter module (src/formatter.rs, entry point print_lines used at
src/src/main.rs line 139) is not part of the excerpt; section 4.5 of the
spec says each token gets exactly one style lookup by kind and is written
with that styling, or as plain text when styling is disabled, and each Blank
token maps to exactly one blank output line. -/
def tokenChars (sheet : StyleSheet) (enabled : Bool) : LineToken → List Char
  | .Heading t => styleWrap sheet.heading enabled t.data
  | .Description t => styleWrap sheet.description enabled t.data
  | .ExampleDescription t => styleWrap sheet.exampleDesc enabled t.data
  | .CommandTemplate sps => spanCharsAll sheet enabled sps
  | .Blank => []

/-- One output line for one token. -/
def renderToken (sheet : StyleSheet) (enabled : Bool) (t : LineToken) : String :=
  String.mk (tokenChars sheet enabled t)

/-- The formatter: one output line per token, in order.  Modelled from the
spec, section 4.5. -/
def print_lines (sheet : StyleSheet) (enabled : Bool) (tokens : List LineToken) : List String :=
  tokens.map (renderToken sheet enabled)

/-- Text characters of a span, styling ignored. -/
def spanTextChars : Span → List Char
  | .Literal s => s.data
  | .Placeholder s => s.data

/-- Concatenated text of a span sequence. -/
def spanTextCat : List Span → List Char
  | [] => []
  | sp :: sps => spanTextChars sp ++ spanTextCat sps

/-- Underlying text of a span sequence as a string. -/
def spansText (sps : List Span) : String := String.mk (spanTextCat sps)

/-- ANSI stripper state machine: outside an escape sequence characters are
copied; an ESC enters an escape sequence, which runs to the next m. -/
def stripAnsiGo : Bool → List Char → List Char
  | _, [] => []
  | true, c :: rest => if c = 'm' then stripAnsiGo false rest else stripAnsiGo true rest
  | false, c :: rest =>
    if c = '\x1b' then stripAnsiGo true rest else c :: stripAnsiGo false rest

/-- Remove ANSI control sequences from a string. -/
def stripAnsi (s : String) : String := String.mk (stripAnsiGo false s.data)

/-- True when a char list carries no ESC character. -/
def noEsc (cs : List Char) : Bool := !cs.contains '\x1b'

/-- True when the underlying text of a token carries no ESC character. -/
def tokNoEsc : LineToken → Bool
  | .Heading t => noEsc t.data
  | .Description t => noEsc t.data
  | .ExampleDescription t => noEsc t.data
  | .CommandTemplate sps => sps.all (fun sp => noEsc (spanTextChars sp))
  | .Blank => true

/-! ## Cache store model -/

/-- On-disk page store: (platform subdirectory, file name) pairs, in
filesystem enumeration order.  Modelled from the spec: the cache module
(src/cache.rs) is not part of the excerpt; section 6 of the spec gives the
layout as one subdirectory per platform plus common, holding page files. -/
abbrev CacheFS := List (String × String)

/-- Platform enumeration.  Modelled from the spec: the types module
(src/types.rs) is not part of the excerpt; section 3 of the spec lists
PlatformKind as Linux, OsX, SunOS, Windows, Other. -/
inductive OsType
  | Linux | OsX | SunOS | Windows | Other
deriving DecidableEq, Repr

/-- Subdirectory of a platform.  Modelled from the spec, sections 4.2 and 6;
a platform without a dedicated subdirectory falls back to common. -/
def platformDir : OsType → String
  | .Linux => "linux"
  | .OsX => "osx"
  | .SunOS => "sunos"
  | .Windows => "windows"
  | .Other => "common"

/-- Strip the file extension: everything from the last dot on. -/
def dropLastExt : List Char → List Char
  | [] => []
  | c :: rest =>
    if c = '.' && !rest.contains '.' then [] else c :: dropLastExt rest

/-- File name without its extension. -/
def stripExt (f : String) : String := String.mk (dropLastExt f.data)

/-- First page file of a subdirectory whose extension-stripped name equals
the command, case-sensitively.  Modelled from the spec, section 4.2. -/
def findInDir (command dir : String) (fs : CacheFS) : Option (String × String) :=
  fs.find? (fun e => e.1 == dir && stripExt e.2 == command)

/-- Page lookup.  Modelled from the spec: the cache module is not part of
the excerpt; section 4.2 of the spec searches the platform subdirectory
first and common second, first match wins, absence is not an error. -/
def find_page (command : String) (os : OsType) (fs : CacheFS) : Option (String × String) :=
  match findInDir command (platformDir os) fs with
  | some p => some p
  | none => findInDir command "common" fs

/-- True for the subdirectories scanned by the listing. -/
def isPlatformSub (d : String) : Bool :=
  ["linux", "osx", "sunos", "windows", "common"].contains d

/-- Bare command names of all platform subdirectories, in enumeration
order, extensions stripped. -/
def pageNames (fs : CacheFS) : List String :=
  (fs.filter (fun e => isPlatformSub e.1)).map (fun e => stripExt e.2)

/-- Lexicographic order on strings by character, as a boolean. -/
def lexLe : List Char → List Char → Bool
  | [], _ => true
  | _ :: _, [] => false
  | a :: as, b :: bs => if a = b then lexLe as bs else decide (a < b)

/-- Lexicographic order on strings. -/
def strLe (a b : String) : Bool := lexLe a.data b.data

/-- Cache listing.  Modelled from the spec: the cache module is not part of
the excerpt; section 4.2 of the spec returns the deduplicated bare command
names of every platform subdirectory in sorted order. -/
def list_pages (fs : CacheFS) : List String :=
  List.insertionSort (fun a b => strLe a b = true) (pageNames fs).dedup

/-! ## Cache lifecycle model -/

/-- Cache root state: absent, or its content together with the time of the
last successful replacement.  Modelled from the spec, sections 3 and 4.2. -/
abbrev CacheState := Option (CacheFS × Nat)

/-- Elapsed time since the last successful replacement, none when the root
does not exist.  Modelled from the spec: the cache module is not part of the
excerpt; section 4.2 of the spec defines last_update. -/
def last_update (st : CacheState) (now : Nat) : Option Nat :=
  st.map (fun r => now - r.2)

/-- Cache clearing deletes the root.  Modelled from the spec, section 4.2. -/
def clear (_st : CacheState) : CacheState := none

/-- Extraction of an archive stream: each entry is a page file or a corrupt
or truncated read.  Modelled from the spec: the cache module is not part of
the excerpt; section 4.1 of the spec makes any single entry failure abort
the whole extraction with ArchiveError. -/
def extractE : List (Option (String × String)) → Except TealdeerError CacheFS
  | [] => .ok []
  | none :: _ => .error (.ArchiveError "corrupt or truncated archive entry")
  | some x :: rest =>
    match extractE rest with
    | .error e => .error e
    | .ok c => .ok (x :: c)

/-- Cache update: extract into a staging area, then atomically swap it in;
on any extraction failure the staging area is discarded and the previous
root is left untouched.  Modelled from the spec: the cache module is not
part of the excerpt; sections 4.1 and 7 of the spec make updates
transactional with all-or-nothing visibility. -/
def update (st : CacheState) (entries : List (Option (String × String))) (now : Nat) :
    CacheState × Except TealdeerError Unit :=
  match extractE entries with
  | .error e => (st, .error e)
  | .ok c => (some (c, now), .ok ())

/-! ## Embeddings from src/src/main.rs -/

/-- Join of a string vector by a separator, as Vec join does in Rust. -/
def rustJoin (sep : String) : List String → String
  | [] => ""
  | [x] => x
  | x :: y :: rest => x ++ sep ++ rustJoin sep (y :: rest)

/-- Embeds the command-name construction of main, src/src/main.rs line 450:
the argument words are joined by a hyphen before the cache lookup. -/
def lookup_command (arg_command : List String) : String := rustJoin "-" arg_command

/-- The page lookup main performs for the given argument words,
src/src/main.rs lines 449 to 455. -/
def mainPageLookup (arg_command : List String) (os : OsType) (fs : CacheFS) :
    Option (String × String) :=
  find_page (lookup_command arg_command) os fs

/-- Maximum cache age in seconds before the staleness warning,
src/src/main.rs line 91. -/
def MAX_CACHE_AGE : Nat := 2592000

/-- Reified effect of the freshness check: terminate the process with exit
code 1, print the staleness warning, or continue silently. -/
inductive CacheCheckOutcome
  | terminate
  | warn
  | proceed
deriving DecidableEq, Repr

/-- Embeds check_cache, src/src/main.rs lines 178 to 201: with the update
flag the check is skipped; otherwise a missing cache terminates the process
with exit code 1, a cache older than MAX_CACHE_AGE prints a warning unless
the quiet flag is set, and anything else passes silently. -/
def check_cache (flag_update flag_quiet : Bool) (ago : Option Nat) : CacheCheckOutcome :=
  if !flag_update then
    match ago with
    | some d => if d > MAX_CACHE_AGE then (if flag_quiet then .proceed else .warn) else .proceed
    | none => .terminate
  else .proceed

/-! ## Dialect-conforming pages and auxiliary predicates -/

/-- Abstract content of a dialect-conforming page: heading text, description
lines, and example blocks of description plus fenced template, following
section 6 of the spec. -/
structure Page where
  name : String
  descriptions : List String
  examples : List (String × String)

/-- Source lines of the example blocks: each block is its description line
followed by a fenced template line. -/
def exampleLines : List (String × String) → List String
  | [] => []
  | ex :: exs => markLine listChars ex.1 :: fenceLine :: ex.2 :: fenceLine :: exampleLines exs

/-- Source lines of a whole page. -/
def pageLines (p : Page) : List String :=
  markLine headingChars p.name :: "" ::
    (p.descriptions.map (markLine descChars) ++ "" :: exampleLines p.examples)

/-- Tokens of the example blocks. -/
def exampleTokens : List (String × String) → List LineToken
  | [] => []
  | ex :: exs =>
    .ExampleDescription ex.1 :: .CommandTemplate (parseSpans ex.2) :: exampleTokens exs

/-- Expected token sequence of a whole page. -/
def pageTokens (p : Page) : List LineToken :=
  .Heading p.name :: .Blank ::
    (p.descriptions.map .Description ++ .Blank :: exampleTokens p.examples)

/-- Plain text lines of the example blocks after formatting. -/
def exampleTexts : List (String × String) → List String
  | [] => []
  | ex :: exs => ex.1 :: spansText (parseSpans ex.2) :: exampleTexts exs

/-- True when the input has a first non-blank line and it does not carry the
heading marker. -/
def firstNonBlankBad (ls : List String) : Bool :=
  match ls.find? (fun l => !l.data.isEmpty) with
  | some l => !chPre headingChars l.data
  | none => false

/-- Number of lines carrying the fence marker; each one toggles the fenced
state of the tokenizer. -/
def fenceCount (ls : List String) : Nat :=
  ls.countP (fun l => chPre fenceChars l.data)

/-- Parity bit of a count. -/
def parityOdd (n : Nat) : Bool := n % 2 == 1

/-- True when the char list holds no double-close-brace. -/
def noCloseIn : List Char → Bool
  | [] => true
  | '}' :: '}' :: _ => false
  | _ :: rest => noCloseIn rest

/-- True when the char list has a double-open-brace and no double-close
follows the first one: an unterminated placeholder. -/
def hasOpenNoClose : List Char → Bool
  | [] => false
  | '{' :: '{' :: rest => noCloseIn rest
  | _ :: rest => hasOpenNoClose rest

/-! ## Theorems -/

theorem intercalate_go_rustJoin (s : String) :
    ∀ as acc, String.intercalate.go acc s as = rustJoin s (acc :: as) := by
  intro as
  induction as with
  | nil => intro acc; rfl
  | cons a as ih =>
    intro acc
    rw [show String.intercalate.go acc s (a :: as) =
        String.intercalate.go (acc ++ s ++ a) s as from rfl, ih]
    cases as with
    | nil => simp [rustJoin, String.append_assoc]
    | cons b bs => simp [rustJoin, String.append_assoc]

theorem rustJoin_intercalate (s : String) (l : List String) :
    rustJoin s l = String.intercalate s l := by
  cases l with
  | nil => rfl
  | cons a as => rw [show String.intercalate s (a :: as) =
      String.intercalate.go a s as from rfl, intercalate_go_rustJoin]

/-- C9: with several command arguments, main looks a single page up under
the name formed by joining the arguments with a hyphen; in particular
arguments git and status resolve to the page git-status. -/
theorem c9_hyphen_join (args : List String) (os : OsType) (fs : CacheFS) :
    lookup_command args = String.intercalate "-" args ∧
    mainPageLookup args os fs = find_page (String.intercalate "-" args) os fs ∧
    lookup_command ["git", "status"] = "git-status" := by
  refine ⟨rustJoin_intercalate _ _, ?_, by decide⟩
  simp only [mainPageLookup, lookup_command, rustJoin_intercalate]

/-- C10: the freshness check is skipped entirely under the update flag; when
it runs, a missing cache terminates the process with exit code 1 even under
the quiet flag, while a cache older than 2592000 seconds only prints a
warning, only without the quiet flag, and never terminates the process. -/
theorem c10_check_cache_spec (q : Bool) (lu : Option Nat) (d : Nat) :
    MAX_CACHE_AGE = 2592000 ∧
    check_cache true q lu = .proceed ∧
    check_cache false q none = .terminate ∧
    check_cache false q (some d) ≠ .terminate ∧
    (check_cache false q (some d) = .warn ↔ (q = false ∧ MAX_CACHE_AGE < d)) := by
  refine ⟨rfl, rfl, rfl, ?_, ?_⟩ <;>
    cases q <;> by_cases h : MAX_CACHE_AGE < d <;> simp [check_cache, h]

theorem c10_check_cache_spec_witness :
    check_cache true false none = .proceed ∧
    check_cache false true none = .terminate ∧
    check_cache false true (some 2592001) ≠ .terminate ∧
    check_cache false false (some 2592001) = .warn ∧
    check_cache false true (some 2592001) ≠ .warn := by
  refine ⟨(c10_check_cache_spec false none 0).2.1,
    (c10_check_cache_spec true none 0).2.2.1,
    (c10_check_cache_spec true none 2592001).2.2.2.1,
    ((c10_check_cache_spec false none 2592001).2.2.2.2).mpr ⟨rfl, by decide⟩,
    fun h => ?_⟩
  have h2 := ((c10_check_cache_spec true none 2592001).2.2.2.2).mp h
  exact absurd h2.1 (by decide)

/-- C5: last_update is none exactly when the cache root does not exist, in
particular immediately after clear; otherwise it is the elapsed time since
the last successful replacement, monotone in wall-clock time. -/
theorem c5_last_update_spec (st : CacheState) (now : Nat) :
    (last_update st now = none ↔ st = none) ∧
    last_update (clear st) now = none ∧
    (∀ c t, last_update (some (c, t)) now = some (now - t)) ∧
    (∀ (c : CacheFS) (t n1 n2 : Nat), n1 ≤ n2 →
      ∃ d1 d2, last_update (some (c, t)) n1 = some d1 ∧
        last_update (some (c, t)) n2 = some d2 ∧ d1 ≤ d2) := by
  refine ⟨?_, rfl, fun c t => rfl,
    fun c t n1 n2 h => ⟨n1 - t, n2 - t, rfl, rfl, Nat.sub_le_sub_right h t⟩⟩
  cases st <;> simp [last_update]

theorem c5_last_update_spec_witness :
    last_update (clear (some ([("common", "tar.md")], 3))) 10 = none ∧
    (∃ d1 d2, last_update (some (([] : CacheFS), 3)) 5 = some d1 ∧
      last_update (some (([] : CacheFS), 3)) 9 = some d2 ∧ d1 ≤ d2) :=
  ⟨(c5_last_update_spec (some ([("common", "tar.md")], 3)) 10).2.1,
    (c5_last_update_spec none 0).2.2.2 [] 3 5 9 (by decide)⟩

/-- C1: an update whose extraction fails, including on a truncated stream,
aborts with ArchiveError and leaves a pre-existing cache byte-identical; on
success the staged content replaces the root atomically, so the visible
cache is always either the old one or a fully extracted new one. -/
theorem c1_update_transactional (st : CacheState)
    (entries : List (Option (String × String))) (now : Nat) :
    (∀ e, extractE entries = .error e →
      (update st entries now).1 = st ∧ (update st entries now).2 = .error e) ∧
    (none ∈ entries → ∃ m, extractE entries = .error (.ArchiveError m)) ∧
    (∀ c, extractE entries = .ok c →
      (update st entries now).1 = some (c, now) ∧ (update st entries now).2 = .ok ()) ∧
    ((update st entries now).1 = st ∨
      ∃ c, extractE entries = .ok c ∧ (update st entries now).1 = some (c, now)) := by
  refine ⟨fun e h => by simp [update, h], ?_, fun c h => by simp [update, h], ?_⟩
  · intro hmem
    induction entries with
    | nil => cases hmem
    | cons a rest ih =>
      cases a with
      | none => exact ⟨"corrupt or truncated archive entry", rfl⟩
      | some x =>
        have hrest : none ∈ rest := by simpa using hmem
        obtain ⟨m, hm⟩ := ih hrest
        exact ⟨m, by simp [extractE, hm]⟩
  · cases hE : extractE entries with
    | error e => exact Or.inl (by simp [update, hE])
    | ok c => exact Or.inr ⟨c, rfl, by simp [update, hE]⟩

theorem c1_update_transactional_witness :
    (update (some ([("common", "tar.md")], 3)) [some ("linux", "b.md"), none] 9).1 =
      some ([("common", "tar.md")], 3) ∧
    (∃ m, extractE [some ("linux", "b.md"), none] = .error (.ArchiveError m)) ∧
    (update none [some ("linux", "b.md")] 9).1 = some ([("linux", "b.md")], 9) := by
  refine ⟨((c1_update_transactional (some ([("common", "tar.md")], 3))
      [some ("linux", "b.md"), none] 9).1
        (.ArchiveError "corrupt or truncated archive entry") (by decide)).1,
    (c1_update_transactional none [some ("linux", "b.md"), none] 9).2.1 (by decide),
    ((c1_update_transactional none [some ("linux", "b.md")] 9).2.2.1
      [("linux", "b.md")] (by decide)).1⟩

/-- C3: find_page searches the platform subdirectory first and common
second, first match wins, returns none exactly when neither holds the page,
and matches are case-sensitive on the extension-stripped file name. -/
theorem c3_find_page_spec (cmd : String) (os : OsType) (fs : CacheFS) :
    (∀ e, findInDir cmd (platformDir os) fs = some e → find_page cmd os fs = some e) ∧
    (findInDir cmd (platformDir os) fs = none →
      find_page cmd os fs = findInDir cmd "common" fs) ∧
    (find_page cmd os fs = none ↔
      (∀ e ∈ fs, e.1 = platformDir os → stripExt e.2 ≠ cmd) ∧
      (∀ e ∈ fs, e.1 = "common" → stripExt e.2 ≠ cmd)) ∧
    (∀ e, find_page cmd os fs = some e →
      e ∈ fs ∧ (e.1 = platformDir os ∨ e.1 = "common") ∧ stripExt e.2 = cmd) := by
  have hnone : ∀ dir : String,
      (findInDir cmd dir fs = none ↔ ∀ e ∈ fs, e.1 = dir → stripExt e.2 ≠ cmd) := by
    intro dir
    simp [findInDir, List.find?_eq_none]
  have hsome : ∀ (dir : String) (e), findInDir cmd dir fs = some e →
      e ∈ fs ∧ e.1 = dir ∧ stripExt e.2 = cmd := by
    intro dir e h
    have hm := List.mem_of_find?_eq_some h
    have hp := List.find?_some h
    simp only [Bool.and_eq_true, beq_iff_eq] at hp
    exact ⟨hm, hp.1, hp.2⟩
  refine ⟨fun e h => by simp [find_page, h], fun h => by simp [find_page, h], ?_, ?_⟩
  · cases hp : findInDir cmd (platformDir os) fs with
    | some e =>
      simp only [find_page, hp]
      constructor
      · intro h; cases h
      · intro ⟨h1, _⟩
        obtain ⟨hm, hd, hx⟩ := hsome _ _ hp
        exact absurd hx (h1 _ hm hd)
    | none =>
      simp only [find_page, hp]
      rw [hnone "common"]
      have := (hnone (platformDir os)).mp hp
      tauto
  · intro e h
    cases hp : findInDir cmd (platformDir os) fs with
    | some p =>
      rw [find_page, hp] at h
      cases h
      obtain ⟨hm, hd, hx⟩ := hsome _ _ hp
      exact ⟨hm, Or.inl hd, hx⟩
    | none =>
      rw [find_page, hp] at h
      obtain ⟨hm, hd, hx⟩ := hsome _ _ h
      exact ⟨hm, Or.inr hd, hx⟩

theorem c3_find_page_spec_witness :
    find_page "tar" .Linux [("linux", "tar.md"), ("common", "tar.md")] =
      some ("linux", "tar.md") ∧
    find_page "tar" .OsX [("linux", "tar.md"), ("common", "tar.md")] =
      some ("common", "tar.md") ∧
    find_page "Tar" .Linux [("linux", "tar.md"), ("common", "tar.md")] = none := by
  refine ⟨(c3_find_page_spec "tar" .Linux _).1 ("linux", "tar.md") (by decide), ?_, ?_⟩
  · rw [(c3_find_page_spec "tar" .OsX _).2.1 (by decide)]
    decide
  · rw [(c3_find_page_spec "Tar" .Linux _).2.2.1.mpr (by decide)]

theorem lexLe_total : ∀ as bs, lexLe as bs = true ∨ lexLe bs as = true := by
  intro as
  induction as with
  | nil => intro bs; exact Or.inl rfl
  | cons a as ih =>
    intro bs
    cases bs with
    | nil => exact Or.inr rfl
    | cons b bs =>
      by_cases hab : a = b
      · subst hab
        rcases ih bs with h | h <;> simp [lexLe, h]
      · rcases lt_trichotomy a b with h | h | h
        · exact Or.inl (by simp [lexLe, hab, h])
        · exact absurd h hab
        · exact Or.inr (by simp [lexLe, Ne.symm hab, h])

theorem lexLe_trans : ∀ as bs cs, lexLe as bs = true → lexLe bs cs = true →
    lexLe as cs = true := by
  intro as
  induction as with
  | nil => intro bs cs _ _; rfl
  | cons a as ih =>
    intro bs cs h1 h2
    cases bs with
    | nil => simp [lexLe] at h1
    | cons b bs =>
      cases cs with
      | nil => simp [lexLe] at h2
      | cons c cs =>
        by_cases hab : a = b <;> by_cases hbc : b = c
        · subst hab; subst hbc
          simp only [lexLe, if_pos rfl] at h1 h2 ⊢
          exact ih _ _ h1 h2
        · subst hab
          simp only [lexLe, if_pos rfl, if_neg hbc, decide_eq_true_eq] at h2 ⊢
          exact h2
        · subst hbc
          simp only [lexLe, if_neg hab, decide_eq_true_eq] at h1 ⊢
          exact h1
        · simp only [lexLe, if_neg hab, if_neg hbc, decide_eq_true_eq] at h1 h2
          have hac : a < c := lt_trans h1 h2
          simp [lexLe, ne_of_lt hac, hac]

theorem lexLe_antisymm : ∀ as bs, lexLe as bs = true → lexLe bs as = true →
    as = bs := by
  intro as
  induction as with
  | nil =>
    intro bs _ h2
    cases bs with
    | nil => rfl
    | cons b bs => simp [lexLe] at h2
  | cons a as ih =>
    intro bs h1 h2
    cases bs with
    | nil => simp [lexLe] at h1
    | cons b bs =>
      by_cases hab : a = b
      · subst hab
        simp only [lexLe, if_pos rfl] at h1 h2
        rw [ih _ h1 h2]
      · simp only [lexLe, if_neg hab, decide_eq_true_eq] at h1
        simp only [lexLe, if_neg (Ne.symm hab), decide_eq_true_eq] at h2
        exact absurd (lt_trans h1 h2) (lt_irrefl a)

instance strLeTotal : IsTotal String (fun a b => strLe a b = true) :=
  ⟨fun a b => lexLe_total a.data b.data⟩

instance strLeTrans : IsTrans String (fun a b => strLe a b = true) :=
  ⟨fun a b c h1 h2 => lexLe_trans a.data b.data c.data h1 h2⟩

instance strLeAntisymm : IsAntisymm String (fun a b => strLe a b = true) :=
  ⟨fun a b h1 h2 => congrArg String.mk (lexLe_antisymm a.data b.data h1 h2)⟩

/-- C7: the listing holds the extension-stripped command names of every
platform subdirectory, deduplicated by bare name even across
subdirectories, in sorted order, and is invariant under reordering of the
filesystem enumeration. -/
theorem c7_list_pages_spec (fs gs : CacheFS) :
    List.Sorted (fun a b => strLe a b = true) (list_pages fs) ∧
    (list_pages fs).Nodup ∧
    (fs.Perm gs → list_pages fs = list_pages gs) ∧
    (∀ x, x ∈ list_pages fs ↔ ∃ e ∈ fs, isPlatformSub e.1 = true ∧ stripExt e.2 = x) := by
  refine ⟨List.sorted_insertionSort _ _, ?_, ?_, ?_⟩
  · exact ((List.perm_insertionSort _ _).nodup_iff).mpr (List.nodup_dedup _)
  · intro h
    have hperm : (pageNames fs).dedup.Perm (pageNames gs).dedup :=
      (((h.filter _).map _).dedup)
    exact List.eq_of_perm_of_sorted
      (((List.perm_insertionSort _ _).trans hperm).trans
        (List.perm_insertionSort _ _).symm)
      (List.sorted_insertionSort _ _) (List.sorted_insertionSort _ _)
  · intro x
    unfold list_pages
    rw [(List.perm_insertionSort _ _).mem_iff, List.mem_dedup]
    simp [pageNames, List.mem_filter]
    tauto

theorem c7_list_pages_spec_witness :
    list_pages [("linux", "tar.md"), ("common", "tar.md"), ("common", "cat.md")] =
      list_pages [("common", "cat.md"), ("linux", "tar.md"), ("common", "tar.md")] ∧
    list_pages [("linux", "tar.md"), ("common", "tar.md"), ("common", "cat.md")] =
      ["cat", "tar"] ∧
    ("tar" ∈ list_pages [("linux", "tar.md"), ("common", "tar.md"), ("common", "cat.md")]) :=
  ⟨(c7_list_pages_spec [("linux", "tar.md"), ("common", "tar.md"), ("common", "cat.md")]
      [("common", "cat.md"), ("linux", "tar.md"), ("common", "tar.md")]).2.2.1 (by decide),
    by decide,
    (c7_list_pages_spec [("linux", "tar.md"), ("common", "tar.md"), ("common", "cat.md")]
      []).2.2.2 "tar" |>.mpr ⟨("linux", "tar.md"), by decide, by decide, by decide⟩⟩

/-- C8: the formatter emits exactly one line per token and a blank line for
each Blank token, so consecutive blanks are never collapsed; and a blank
line outside a fence passes through the tokenizer as exactly one Blank token
without changing state. -/
theorem c8_blank_lines (sheet : StyleSheet) (enabled : Bool)
    (tokens : List LineToken) (i : Nat) (st : TokState) :
    (print_lines sheet enabled tokens).length = tokens.length ∧
    (tokens[i]? = some .Blank → (print_lines sheet enabled tokens)[i]? = some "") ∧
    (st.inFence = false → step st "" = .ok (st, [.Blank])) := by
  refine ⟨by simp [print_lines], ?_, ?_⟩
  · intro h
    simp [print_lines, h, renderToken, tokenChars]
  · intro h
    simp [step, h]

theorem c8_blank_lines_witness :
    (print_lines ⟨⟨none, false, false⟩, ⟨none, false, false⟩, ⟨none, false, false⟩,
        ⟨none, false, false⟩, ⟨none, false, false⟩⟩ true [.Blank, .Blank]).length = 2 ∧
    (print_lines ⟨⟨none, false, false⟩, ⟨none, false, false⟩, ⟨none, false, false⟩,
        ⟨none, false, false⟩, ⟨none, false, false⟩⟩ true [.Blank, .Blank])[1]? = some "" ∧
    step ⟨.ReadingExamples, false⟩ "" = .ok (⟨.ReadingExamples, false⟩, [.Blank]) :=
  ⟨(c8_blank_lines _ true [.Blank, .Blank] 1 ⟨.ReadingExamples, false⟩).1,
    (c8_blank_lines _ true [.Blank, .Blank] 1 ⟨.ReadingExamples, false⟩).2.1 (by decide),
    (c8_blank_lines ⟨⟨none, false, false⟩, ⟨none, false, false⟩, ⟨none, false, false⟩,
        ⟨none, false, false⟩, ⟨none, false, false⟩⟩ true [.Blank, .Blank] 1
      ⟨.ReadingExamples, false⟩).2.2 rfl⟩

theorem goSpans_none_step (acc : List Char) (c : Char) (rest : List Char)
    (h : ¬(c = '{' ∧ rest.head? = some '{')) :
    goSpans none acc (c :: rest) = goSpans none (acc ++ [c]) rest := by
  rw [goSpans.eq_def]
  split <;> simp_all

theorem goSpans_some_step (lit acc : List Char) (c : Char) (rest : List Char)
    (h : ¬(c = '}' ∧ rest.head? = some '}')) :
    goSpans (some lit) acc (c :: rest) = goSpans (some lit) (acc ++ [c]) rest := by
  rw [goSpans.eq_def]
  split <;> simp_all

theorem noCloseIn_step (c : Char) (rest : List Char)
    (h : ¬(c = '}' ∧ rest.head? = some '}')) :
    noCloseIn (c :: rest) = noCloseIn rest := by
  rw [noCloseIn.eq_def]
  split <;> simp_all

theorem hasOpenNoClose_step (c : Char) (rest : List Char)
    (h : ¬(c = '{' ∧ rest.head? = some '{')) :
    hasOpenNoClose (c :: rest) = hasOpenNoClose rest := by
  rw [hasOpenNoClose.eq_def]
  split <;> simp_all

theorem goSpans_some_noClose : ∀ (cs lit acc : List Char), noCloseIn cs = true →
    goSpans (some lit) acc cs =
      [Span.Literal (String.mk (lit ++ '{' :: '{' :: (acc ++ cs)))] := by
  intro cs
  induction cs with
  | nil => intro lit acc _; simp [goSpans]
  | cons c rest ih =>
    intro lit acc h
    have hcc : ¬(c = '}' ∧ rest.head? = some '}') := by
      rintro ⟨rfl, hh⟩
      cases rest with
      | nil => simp at hh
      | cons c2 rest2 =>
        simp at hh
        subst hh
        simp [noCloseIn] at h
    rw [goSpans_some_step _ _ _ _ hcc, ih _ _ (by rw [← noCloseIn_step _ _ hcc]; exact h)]
    simp

theorem goSpans_some_app : ∀ (inner lit acc tail : List Char), '}' ∉ inner →
    goSpans (some lit) acc (inner ++ tail) = goSpans (some lit) (acc ++ inner) tail := by
  intro inner
  induction inner with
  | nil => intro lit acc tail _; simp
  | cons i rest ih =>
    intro lit acc tail h
    have hi : i ≠ '}' := fun hq => h (hq ▸ List.mem_cons_self i rest)
    rw [List.cons_append, goSpans_some_step _ _ _ _ (fun hq => hi hq.1),
      ih _ _ _ (fun hq => h (List.mem_cons_of_mem i hq))]
    simp

theorem goSpans_none_app : ∀ (pre acc tail : List Char), '{' ∉ pre →
    goSpans none acc (pre ++ tail) = goSpans none (acc ++ pre) tail := by
  intro pre
  induction pre with
  | nil => intro acc tail _; simp
  | cons c rest ih =>
    intro acc tail h
    have hc : c ≠ '{' := fun hq => h (hq ▸ List.mem_cons_self c rest)
    rw [List.cons_append, goSpans_none_step _ _ _ (fun hq => hc hq.1),
      ih _ _ (fun hq => h (List.mem_cons_of_mem c hq))]
    simp

theorem goSpans_unterminated : ∀ (cs acc : List Char), hasOpenNoClose cs = true →
    goSpans none acc cs = [Span.Literal (String.mk (acc ++ cs))] := by
  intro cs
  induction cs with
  | nil => intro acc h; simp [hasOpenNoClose] at h
  | cons c rest ih =>
    intro acc h
    by_cases hcc : c = '{' ∧ rest.head? = some '{'
    · obtain ⟨rfl, hh⟩ := hcc
      cases rest with
      | nil => simp at hh
      | cons c2 rest2 =>
        simp at hh
        subst hh
        have hnc : noCloseIn rest2 = true := by simpa [hasOpenNoClose] using h
        rw [show goSpans none acc ('{' :: '{' :: rest2) = goSpans (some acc) [] rest2
          from rfl, goSpans_some_noClose _ _ _ hnc]
        simp
    · rw [goSpans_none_step _ _ _ hcc,
        ih _ (by rw [← hasOpenNoClose_step _ _ hcc]; exact h)]
      simp

/-- C6: double-brace regions of a template line parse into Placeholder spans
with the text between them as Literal spans; a line whose first double-open
brace is never closed stays one literal span, is still accepted by the
tokenizer inside a fence as a CommandTemplate token rather than a
FormatError, and renders as its own literal text. -/
theorem c6_lenient_placeholders (s : String) (pre inner rest : List Char)
    (sheet : StyleSheet) (st : TokState) (l : String) :
    ('{' ∉ pre → '}' ∉ inner →
      parseSpans (String.mk (pre ++ '{' :: '{' :: (inner ++ '}' :: '}' :: rest))) =
        litSpan pre ++ Span.Placeholder (String.mk inner) :: goSpans none [] rest) ∧
    (hasOpenNoClose s.data = true → parseSpans s = [Span.Literal s]) ∧
    (hasOpenNoClose s.data = true →
      renderToken sheet false (.CommandTemplate (parseSpans s)) = s) ∧
    (st.inFence = true → chPre fenceChars l.data = false →
      step st l = .ok (st, [.CommandTemplate (parseSpans l)])) := by
  have huntl : hasOpenNoClose s.data = true → parseSpans s = [Span.Literal s] := by
    intro h
    rw [parseSpans, goSpans_unterminated _ _ h]
    simp
  refine ⟨?_, huntl, ?_, ?_⟩
  · intro hpre hinner
    rw [parseSpans, show (String.mk (pre ++ '{' :: '{' :: (inner ++ '}' :: '}' :: rest))).data
        = pre ++ '{' :: '{' :: (inner ++ '}' :: '}' :: rest) from rfl,
      goSpans_none_app _ _ _ hpre,
      show goSpans none ([] ++ pre) ('{' :: '{' :: (inner ++ '}' :: '}' :: rest))
        = goSpans (some ([] ++ pre)) [] (inner ++ '}' :: '}' :: rest) from rfl,
      goSpans_some_app _ _ _ _ hinner]
    simp [goSpans, litSpan]
  · intro h
    rw [huntl h]
    simp [renderToken, tokenChars, spanCharsAll, spanChars, styleWrap]
  · intro h1 h2
    simp [step, h1, h2]

theorem c6_lenient_placeholders_witness :
    parseSpans "ls \x7b\x7bunclosed" = [Span.Literal "ls \x7b\x7bunclosed"] ∧
    renderToken ⟨⟨none, false, false⟩, ⟨none, false, false⟩, ⟨none, false, false⟩,
        ⟨none, false, false⟩, ⟨none, false, false⟩⟩ false
      (.CommandTemplate (parseSpans "ls \x7b\x7bunclosed")) = "ls \x7b\x7bunclosed" ∧
    step ⟨.ReadingExamples, true⟩ "ls \x7b\x7bunclosed" =
      .ok (⟨.ReadingExamples, true⟩, [.CommandTemplate (parseSpans "ls \x7b\x7bunclosed")]) ∧
    parseSpans "ls \x7b\x7bfile\x7d\x7d" =
      [Span.Literal "ls ", Span.Placeholder "file"] := by
  have T := c6_lenient_placeholders "ls \x7b\x7bunclosed" ['l', 's', ' ']
    ['f', 'i', 'l', 'e'] []
    ⟨⟨none, false, false⟩, ⟨none, false, false⟩, ⟨none, false, false⟩,
      ⟨none, false, false⟩, ⟨none, false, false⟩⟩
    ⟨.ReadingExamples, true⟩ "ls \x7b\x7bunclosed"
  refine ⟨T.2.1 (by decide), T.2.2.1 (by decide), T.2.2.2 rfl (by decide), ?_⟩
  have h1 := T.1 (by decide) (by decide)
  simpa [litSpan, goSpans] using h1

theorem chPre_mark_head (c : Char) (cs d : List Char) (h : chPre (c :: cs) d = true) :
    ∃ e, d = c :: e := by
  cases d with
  | nil => simp [chPre] at h
  | cons b bs =>
    simp [chPre] at h
    exact ⟨bs, by rw [h.1]⟩

theorem parityOdd_succ (n : Nat) : parityOdd (n + 1) = !parityOdd n := by
  unfold parityOdd
  rcases Nat.mod_two_eq_zero_or_one n with h | h <;> simp [Nat.add_mod, h]

theorem step_nonheading (st : TokState) (l : String) (h : ¬ st.phase = .ReadingHeading) :
    ∃ st2 ts, step st l = .ok (st2, ts) ∧ ¬ st2.phase = .ReadingHeading ∧
      st2.inFence = (st.inFence ^^ chPre fenceChars l.data) := by
  cases hin : st.inFence with
  | true =>
    by_cases hf : chPre fenceChars l.data
    · exact ⟨{ st with inFence := false }, [], by simp [step, hin, hf],
        by simpa using h, by simp [hf]⟩
    · exact ⟨st, [.CommandTemplate (parseSpans l)], by simp [step, hin, hf], h,
        by simp [hf, hin]⟩
  | false =>
    by_cases hb : l.data.isEmpty
    · have hf : chPre fenceChars l.data = false := by
        have hl : l.data = [] := by simpa using hb
        rw [hl]; rfl
      exact ⟨st, [.Blank], by simp [step, hin, hb], h, by simp [hf, hin]⟩
    · by_cases hh : chPre headingChars l.data
      · have hf : chPre fenceChars l.data = false := by
          obtain ⟨e, he⟩ := chPre_mark_head _ _ _ hh
          rw [he]; rfl
        exact ⟨{ st with phase := .ReadingDescription }, [.Heading (afterMark l)],
          by simp [step, hin, hb, hh], by simp, by simp [hf, hin]⟩
      · by_cases hd : chPre descChars l.data
        · have hf : chPre fenceChars l.data = false := by
            obtain ⟨e, he⟩ := chPre_mark_head _ _ _ hd
            rw [he]; rfl
          exact ⟨{ st with phase := .ReadingDescription }, [.Description (afterMark l)],
            by simp [step, hin, hb, hh, h, hd], by simp, by simp [hf, hin]⟩
        · by_cases hl2 : chPre listChars l.data
          · have hf : chPre fenceChars l.data = false := by
              obtain ⟨e, he⟩ := chPre_mark_head _ _ _ hl2
              rw [he]; rfl
            exact ⟨{ st with phase := .ReadingExamples }, [.ExampleDescription (afterMark l)],
              by simp [step, hin, hb, hh, h, hd, hl2], by simp, by simp [hf, hin]⟩
          · by_cases hf : chPre fenceChars l.data
            · exact ⟨{ st with inFence := true }, [],
                by simp [step, hin, hb, hh, h, hd, hl2, hf], by simpa using h, by simp [hf]⟩
            · exact ⟨st, [.Description l], by simp [step, hin, hb, hh, h, hd, hl2, hf], h,
                by simp [hf, hin]⟩

theorem runTok_nonheading : ∀ (ls : List String) (st : TokState),
    ¬ st.phase = .ReadingHeading →
    ∃ st2 ts, runTok st ls = .ok (st2, ts) ∧ ¬ st2.phase = .ReadingHeading ∧
      st2.inFence = (st.inFence ^^ parityOdd (fenceCount ls)) := by
  intro ls
  induction ls with
  | nil => intro st h; exact ⟨st, [], rfl, h, by simp [fenceCount, parityOdd]⟩
  | cons l ls ih =>
    intro st h
    obtain ⟨st1, ts, hstep, h1, hf1⟩ := step_nonheading st l h
    obtain ⟨st2, ts2, hrun, h2, hf2⟩ := ih st1 h1
    refine ⟨st2, ts ++ ts2, by simp [runTok, hstep, hrun], h2, ?_⟩
    cases hc : chPre fenceChars l.data
    · have hcc : fenceCount (l :: ls) = fenceCount ls := by
        simp [fenceCount, List.countP_cons, hc]
      rw [hf2, hf1, hcc, hc]
      simp
    · have hcc : fenceCount (l :: ls) = fenceCount ls + 1 := by
        simp [fenceCount, List.countP_cons, hc]
      rw [hf2, hf1, hcc, hc, parityOdd_succ]
      cases st.inFence <;> cases parityOdd (fenceCount ls) <;> rfl

theorem runTok_heading : ∀ ls : List String,
    (firstNonBlankBad ls = true →
      runTok ⟨.ReadingHeading, false⟩ ls = .error (.FormatError "expected page title")) ∧
    (firstNonBlankBad ls = false →
      ∃ st2 ts, runTok ⟨.ReadingHeading, false⟩ ls = .ok (st2, ts) ∧
        st2.inFence = parityOdd (fenceCount ls)) := by
  intro ls
  induction ls with
  | nil =>
    exact ⟨fun h => by simp [firstNonBlankBad] at h,
      fun _ => ⟨⟨.ReadingHeading, false⟩, [], rfl, by simp [fenceCount, parityOdd]⟩⟩
  | cons l ls ih =>
    by_cases hb : l.data.isEmpty
    · have hstep : step ⟨.ReadingHeading, false⟩ l = .ok (⟨.ReadingHeading, false⟩, [.Blank]) := by
        simp [step, hb]
      have hbad : firstNonBlankBad (l :: ls) = firstNonBlankBad ls := by
        simp [firstNonBlankBad, List.find?_cons, hb]
      have hcnt : fenceCount (l :: ls) = fenceCount ls := by
        have hl : l.data = [] := by simpa using hb
        simp [fenceCount, List.countP_cons, hl, fenceChars, chPre]
      constructor
      · intro h
        have he := ih.1 (by rw [← hbad]; exact h)
        simp [runTok, hstep, he]
      · intro h
        obtain ⟨st2, ts, hrun, hf⟩ := ih.2 (by rw [← hbad]; exact h)
        exact ⟨st2, .Blank :: ts, by simp [runTok, hstep, hrun], by rw [hf, hcnt]⟩
    · have hfind : firstNonBlankBad (l :: ls) = !chPre headingChars l.data := by
        simp [firstNonBlankBad, List.find?_cons, hb]
      by_cases hh : chPre headingChars l.data
      · have hstep : step ⟨.ReadingHeading, false⟩ l =
            .ok (⟨.ReadingDescription, false⟩, [.Heading (afterMark l)]) := by
          simp [step, hb, hh]
        have hcnt : fenceCount (l :: ls) = fenceCount ls := by
          obtain ⟨e, he⟩ := chPre_mark_head _ _ _ hh
          have hf : chPre fenceChars l.data = false := by rw [he]; rfl
          simp [fenceCount, List.countP_cons, hf]
        constructor
        · intro h
          rw [hfind, hh] at h
          simp at h
        · intro _
          obtain ⟨st2, ts, hrun, _, hf⟩ :=
            runTok_nonheading ls ⟨.ReadingDescription, false⟩ (by simp)
          exact ⟨st2, .Heading (afterMark l) :: ts, by simp [runTok, hstep, hrun],
            by rw [hf, hcnt]; simp⟩
      · have hstep : step ⟨.ReadingHeading, false⟩ l =
            .error (.FormatError "expected page title") := by
          simp [step, hb, hh]
        constructor
        · intro _
          simp [runTok, hstep]
        · intro h
          rw [hfind] at h
          simp [hh] at h

/-- C4: the tokenizer fails with FormatError in exactly two situations, a
first non-blank line without the heading marker or end-of-input inside an
unterminated fenced block; on every other input end-of-input reaches the
Done state without error. -/
theorem c4_tokenize_failure (ls : List String) :
    ((∃ e, tokenize ls = .error e) ↔
      (firstNonBlankBad ls = true ∨
        (firstNonBlankBad ls = false ∧ parityOdd (fenceCount ls) = true))) ∧
    (∀ e, tokenize ls = .error e → ∃ m, e = TealdeerError.FormatError m) ∧
    (∀ st ts, tokenize ls = .ok (st, ts) → st.phase = .Done) := by
  by_cases hbad : firstNonBlankBad ls = true
  · have he := (runTok_heading ls).1 hbad
    have ht : tokenize ls = .error (.FormatError "expected page title") := by
      simp [tokenize, he]
    refine ⟨⟨fun _ => Or.inl hbad, fun _ => ⟨_, ht⟩⟩, ?_, ?_⟩
    · intro e hE
      rw [ht] at hE
      cases hE
      exact ⟨_, rfl⟩
    · intro st ts hE
      rw [ht] at hE
      cases hE
  · have hbf : firstNonBlankBad ls = false := by simpa using hbad
    obtain ⟨st2, ts, hrun, hf⟩ := (runTok_heading ls).2 hbf
    by_cases hp : parityOdd (fenceCount ls) = true
    · have ht : tokenize ls = .error (.FormatError "unterminated code block") := by
        simp [tokenize, hrun, hf, hp]
      refine ⟨⟨fun _ => Or.inr ⟨hbf, hp⟩, fun _ => ⟨_, ht⟩⟩, ?_, ?_⟩
      · intro e hE
        rw [ht] at hE
        cases hE
        exact ⟨_, rfl⟩
      · intro st ts hE
        rw [ht] at hE
        cases hE
    · have hpf : parityOdd (fenceCount ls) = false := by simpa using hp
      have ht : tokenize ls = .ok (⟨.Done, false⟩, ts) := by
        simp [tokenize, hrun, hf, hpf]
      refine ⟨⟨?_, ?_⟩, ?_, ?_⟩
      · rintro ⟨e, hE⟩
        rw [ht] at hE
        cases hE
      · rintro (h | ⟨_, h⟩)
        · exact absurd h hbad
        · exact absurd h hp
      · intro e hE
        rw [ht] at hE
        cases hE
      · intro st ts2 hE
        rw [ht] at hE
        cases hE
        rfl

theorem c4_tokenize_failure_witness :
    (∃ e, tokenize [String.mk ['#', ' ', 't'], fenceLine] = .error e) ∧
    (∃ e, tokenize ["oops"] = .error e) ∧
    tokenize [String.mk ['#', ' ', 't']] = .ok (⟨.Done, false⟩, [.Heading "t"]) :=
  ⟨(c4_tokenize_failure [String.mk ['#', ' ', 't'], fenceLine]).1.mpr
      (Or.inr ⟨by decide, by decide⟩),
    (c4_tokenize_failure ["oops"]).1.mpr (Or.inl (by decide)),
    by decide⟩

theorem runTok_cons (st : TokState) (l : String) (ls : List String) :
    runTok st (l :: ls) =
      (match step st l with
       | .error e => .error e
       | .ok (st1, ts) =>
         match runTok st1 ls with
         | .error e => .error e
         | .ok (st2, ts2) => .ok (st2, ts ++ ts2)) := rfl

theorem runTok_cons_ok (st stm st2 : TokState) (l : String) (ls : List String)
    (tsm ts2 : List LineToken) (h1 : step st l = .ok (stm, tsm))
    (h2 : runTok stm ls = .ok (st2, ts2)) :
    runTok st (l :: ls) = .ok (st2, tsm ++ ts2) := by
  simp [runTok, h1, h2]

theorem runTok_append_ok : ∀ (ls1 ls2 : List String) (st st1 st2 : TokState)
    (ts1 ts2 : List LineToken), runTok st ls1 = .ok (st1, ts1) →
    runTok st1 ls2 = .ok (st2, ts2) → runTok st (ls1 ++ ls2) = .ok (st2, ts1 ++ ts2) := by
  intro ls1
  induction ls1 with
  | nil =>
    intro ls2 st st1 st2 ts1 ts2 h1 h2
    simp only [runTok] at h1
    cases h1
    simpa using h2
  | cons l ls ih =>
    intro ls2 st st1 st2 ts1 ts2 h1 h2
    cases hstep : step st l with
    | error e => simp [runTok, hstep] at h1
    | ok p =>
      obtain ⟨stm, tsm⟩ := p
      cases hrun : runTok stm ls with
      | error e => simp [runTok, hstep, hrun] at h1
      | ok q =>
        obtain ⟨stmid, tsmid⟩ := q
        simp [runTok, hstep, hrun] at h1
        obtain ⟨rfl, rfl⟩ := h1
        rw [List.cons_append]
        have hrec := ih ls2 stm stmid st2 tsmid ts2 hrun h2
        simp [runTok, hstep, hrec, List.append_assoc]

theorem step_heading_line (n : String) :
    step ⟨.ReadingHeading, false⟩ (markLine headingChars n) =
      .ok (⟨.ReadingDescription, false⟩, [.Heading n]) := by
  have h0 : (markLine headingChars n).data.isEmpty = false := rfl
  have h1 : chPre headingChars (markLine headingChars n).data = true := by
    simp [markLine, headingChars, chPre]
  simp [step, h0, h1]
  rfl

theorem step_blank (ph : Phase) :
    step ⟨ph, false⟩ "" = .ok (⟨ph, false⟩, [.Blank]) := by
  have h0 : ("" : String).data.isEmpty = true := rfl
  simp [step, h0]

theorem step_desc_line (d : String) (ph : Phase) (h : ¬ ph = .ReadingHeading) :
    step ⟨ph, false⟩ (markLine descChars d) =
      .ok (⟨.ReadingDescription, false⟩, [.Description d]) := by
  have h0 : (markLine descChars d).data.isEmpty = false := rfl
  have h1 : chPre headingChars (markLine descChars d).data = false := rfl
  have h2 : chPre descChars (markLine descChars d).data = true := by
    simp [markLine, descChars, chPre]
  simp [step, h0, h1, h2, h]
  rfl

theorem step_list_line (d : String) (ph : Phase) (h : ¬ ph = .ReadingHeading) :
    step ⟨ph, false⟩ (markLine listChars d) =
      .ok (⟨.ReadingExamples, false⟩, [.ExampleDescription d]) := by
  have h0 : (markLine listChars d).data.isEmpty = false := rfl
  have h1 : chPre headingChars (markLine listChars d).data = false := rfl
  have h2 : chPre descChars (markLine listChars d).data = false := rfl
  have h3 : chPre listChars (markLine listChars d).data = true := by
    simp [markLine, listChars, chPre]
  simp [step, h0, h1, h2, h3, h]
  rfl

theorem step_fence_open (ph : Phase) (h : ¬ ph = .ReadingHeading) :
    step ⟨ph, false⟩ fenceLine = .ok (⟨ph, true⟩, []) := by
  have h0 : fenceLine.data.isEmpty = false := rfl
  have h1 : chPre headingChars fenceLine.data = false := rfl
  have h2 : chPre descChars fenceLine.data = false := rfl
  have h3 : chPre listChars fenceLine.data = false := rfl
  have h4 : chPre fenceChars fenceLine.data = true := rfl
  simp [step, h0, h1, h2, h3, h4, h]

theorem step_fence_close (ph : Phase) :
    step ⟨ph, true⟩ fenceLine = .ok (⟨ph, false⟩, []) := by
  have h4 : chPre fenceChars fenceLine.data = true := rfl
  simp [step, h4]

theorem step_template (ph : Phase) (c : String) (h : chPre fenceChars c.data = false) :
    step ⟨ph, true⟩ c = .ok (⟨ph, true⟩, [.CommandTemplate (parseSpans c)]) := by
  simp [step, h]

theorem runTok_descs : ∀ ds : List String,
    runTok ⟨.ReadingDescription, false⟩ (ds.map (markLine descChars)) =
      .ok (⟨.ReadingDescription, false⟩, ds.map .Description) := by
  intro ds
  induction ds with
  | nil => rfl
  | cons d ds ih =>
    have h := runTok_cons_ok _ _ _ _ _ _ _
      (step_desc_line d .ReadingDescription (by simp)) ih
    simpa using h

theorem runTok_examples : ∀ (exs : List (String × String)) (ph : Phase),
    ¬ ph = .ReadingHeading →
    (∀ ex ∈ exs, chPre fenceChars ex.2.data = false) →
    ∃ ph2, runTok ⟨ph, false⟩ (exampleLines exs) = .ok (⟨ph2, false⟩, exampleTokens exs) ∧
      ¬ ph2 = .ReadingHeading := by
  intro exs
  induction exs with
  | nil => intro ph h _; exact ⟨ph, rfl, h⟩
  | cons ex exs ih =>
    intro ph h hfence
    obtain ⟨ph2, hrun, h2⟩ :=
      ih .ReadingExamples (by simp) (fun e he => hfence e (List.mem_cons_of_mem _ he))
    refine ⟨ph2, ?_, h2⟩
    have s4 := runTok_cons_ok _ _ _ _ _ _ _ (step_fence_close .ReadingExamples) hrun
    have s3 := runTok_cons_ok _ _ _ _ _ _ _
      (step_template .ReadingExamples ex.2 (hfence ex (List.mem_cons_self ex exs))) s4
    have s2 := runTok_cons_ok _ _ _ _ _ _ _
      (step_fence_open .ReadingExamples (by simp)) s3
    have s1 := runTok_cons_ok _ _ _ _ _ _ _ (step_list_line ex.1 ph h) s2
    rw [exampleLines]
    simpa [exampleTokens] using s1

theorem tokenize_page (p : Page)
    (hfence : ∀ ex ∈ p.examples, chPre fenceChars ex.2.data = false) :
    tokenize (pageLines p) = .ok (⟨.Done, false⟩, pageTokens p) := by
  obtain ⟨ph2, hex, _⟩ := runTok_examples p.examples .ReadingDescription (by simp) hfence
  have hrest2 : runTok ⟨.ReadingDescription, false⟩ ("" :: exampleLines p.examples) =
      .ok (⟨ph2, false⟩, .Blank :: exampleTokens p.examples) := by
    have h := runTok_cons_ok _ _ _ _ _ _ _ (step_blank .ReadingDescription) hex
    simpa using h
  have hdescs2 : runTok ⟨.ReadingDescription, false⟩
      (p.descriptions.map (markLine descChars) ++ "" :: exampleLines p.examples) =
      .ok (⟨ph2, false⟩, p.descriptions.map .Description ++ .Blank :: exampleTokens p.examples) :=
    runTok_append_ok _ _ _ _ _ _ _ (runTok_descs p.descriptions) hrest2
  have hall : runTok ⟨.ReadingHeading, false⟩ (pageLines p) =
      .ok (⟨ph2, false⟩, pageTokens p) := by
    have h2b := runTok_cons_ok _ _ _ _ _ _ _ (step_blank .ReadingDescription) hdescs2
    have h1b := runTok_cons_ok _ _ _ _ _ _ _ (step_heading_line p.name) h2b
    rw [pageLines]
    simpa [pageTokens] using h1b
  simp [tokenize, hall]

theorem spanCharsAll_plain (sheet : StyleSheet) :
    ∀ sps, spanCharsAll sheet false sps = spanTextCat sps := by
  intro sps
  induction sps with
  | nil => rfl
  | cons sp sps ih =>
    cases sp <;> simp [spanCharsAll, spanTextCat, spanChars, spanTextChars, styleWrap, ih]

theorem render_exampleTokens (sheet : StyleSheet) : ∀ exs,
    (exampleTokens exs).map (renderToken sheet false) = exampleTexts exs := by
  intro exs
  induction exs with
  | nil => rfl
  | cons ex exs ih =>
    simp only [exampleTokens, exampleTexts, List.map_cons, ih]
    simp [renderToken, tokenChars, spansText, spanCharsAll_plain, styleWrap]

theorem colorCode_no_m (c : Color) : 'm' ∉ colorCodeChars c := by
  cases c <;> decide

theorem stripGo_skipEsc : ∀ (code : List Char), 'm' ∉ code → ∀ rest,
    stripAnsiGo true (code ++ 'm' :: rest) = stripAnsiGo false rest := by
  intro code
  induction code with
  | nil => intro _ rest; simp [stripAnsiGo]
  | cons c cs ih =>
    intro h rest
    have hc : ¬ c = 'm' := fun hq => h (hq ▸ List.mem_cons_self c cs)
    simp [stripAnsiGo, hc, ih (fun hq => h (List.mem_cons_of_mem _ hq))]

theorem stripGo_csi (code : List Char) (h : 'm' ∉ code) (rest : List Char) :
    stripAnsiGo false (csiL code ++ rest) = stripAnsiGo false rest := by
  have heq : csiL code ++ rest = '\x1b' :: '[' :: (code ++ 'm' :: rest) := by
    simp [csiL]
  rw [heq]
  have hbr : ¬ ('[' : Char) = 'm' := by decide
  simp [stripAnsiGo, hbr, stripGo_skipEsc code h rest]

theorem stripGo_clean : ∀ (cs : List Char), '\x1b' ∉ cs → ∀ rest,
    stripAnsiGo false (cs ++ rest) = cs ++ stripAnsiGo false rest := by
  intro cs
  induction cs with
  | nil => intro _ rest; rfl
  | cons c cs ih =>
    intro h rest
    have hc : ¬ c = '\x1b' := fun hq => h (hq ▸ List.mem_cons_self c cs)
    simp [stripAnsiGo, hc, ih (fun hq => h (List.mem_cons_of_mem _ hq))]

theorem stripGo_pre (s : LineStyle) (rest : List Char) :
    stripAnsiGo false (preChars s ++ rest) = stripAnsiGo false rest := by
  cases hfg : s.fg with
  | none =>
    by_cases h1 : s.bold <;> by_cases h2 : s.underline <;>
      simp [preChars, hfg, h1, h2, List.append_assoc, stripGo_csi ['1'] (by decide),
        stripGo_csi ['4'] (by decide)]
  | some c =>
    by_cases h1 : s.bold <;> by_cases h2 : s.underline <;>
      simp [preChars, hfg, h1, h2, List.append_assoc, stripGo_csi ['1'] (by decide),
        stripGo_csi ['4'] (by decide), stripGo_csi (colorCodeChars c) (colorCode_no_m c)]

theorem stripGo_post (s : LineStyle) (rest : List Char) :
    stripAnsiGo false (postChars s ++ rest) = stripAnsiGo false rest := by
  by_cases h : (s.fg.isSome || s.bold || s.underline) = true <;>
    simp [postChars, h, stripGo_csi ['0'] (by decide)]

theorem stripGo_wrap (s : LineStyle) (cs rest : List Char) (h : noEsc cs = true) :
    stripAnsiGo false (styleWrap s true cs ++ rest) = cs ++ stripAnsiGo false rest := by
  have hN : '\x1b' ∉ cs := by simpa [noEsc] using h
  simp [styleWrap, List.append_assoc, stripGo_pre, stripGo_clean cs hN, stripGo_post]

theorem stripGo_wrap_nil (s : LineStyle) (cs : List Char) (h : noEsc cs = true) :
    stripAnsiGo false (styleWrap s true cs) = cs := by
  have hw := stripGo_wrap s cs [] h
  simpa [stripAnsiGo] using hw

theorem stripGo_spans (sheet : StyleSheet) : ∀ (sps : List Span) (rest : List Char),
    (∀ sp ∈ sps, noEsc (spanTextChars sp) = true) →
    stripAnsiGo false (spanCharsAll sheet true sps ++ rest) =
      spanTextCat sps ++ stripAnsiGo false rest := by
  intro sps
  induction sps with
  | nil => intro rest _; simp [spanCharsAll, spanTextCat]
  | cons sp sps ih =>
    intro rest h
    have h1 := h sp (List.mem_cons_self sp sps)
    have hr := ih rest (fun x hx => h x (List.mem_cons_of_mem _ hx))
    cases sp with
    | Literal s =>
      simp only [spanCharsAll, spanChars, spanTextCat, spanTextChars, List.append_assoc] at *
      rw [stripGo_wrap _ _ _ h1, hr]
    | Placeholder s =>
      simp only [spanCharsAll, spanChars, spanTextCat, spanTextChars, List.append_assoc] at *
      rw [stripGo_wrap _ _ _ h1, hr]

theorem stripTok (sheet : StyleSheet) (t : LineToken) (h : tokNoEsc t = true) :
    stripAnsi (renderToken sheet true t) = renderToken sheet false t := by
  cases t with
  | Heading s =>
    simp only [tokNoEsc] at h
    have hF : styleWrap sheet.heading false s.data = s.data := rfl
    simp [stripAnsi, renderToken, tokenChars, hF, stripGo_wrap_nil _ _ h]
  | Description s =>
    simp only [tokNoEsc] at h
    have hF : styleWrap sheet.description false s.data = s.data := rfl
    simp [stripAnsi, renderToken, tokenChars, hF, stripGo_wrap_nil _ _ h]
  | ExampleDescription s =>
    simp only [tokNoEsc] at h
    have hF : styleWrap sheet.exampleDesc false s.data = s.data := rfl
    simp [stripAnsi, renderToken, tokenChars, hF, stripGo_wrap_nil _ _ h]
  | CommandTemplate sps =>
    simp only [tokNoEsc, List.all_eq_true] at h
    have hs := stripGo_spans sheet sps [] h
    simp only [List.append_nil] at hs
    simp [stripAnsi, renderToken, tokenChars, hs, spanCharsAll_plain, stripAnsiGo]
  | Blank => rfl

theorem print_lines_strip (sheet : StyleSheet) (tokens : List LineToken)
    (h : ∀ t ∈ tokens, tokNoEsc t = true) :
    (print_lines sheet true tokens).map stripAnsi = print_lines sheet false tokens := by
  unfold print_lines
  rw [List.map_map]
  exact List.map_congr_left (fun t ht => stripTok sheet t (h t ht))

/-- C2: tokenizing a dialect-conforming page and then formatting the tokens
reproduces the heading, description and example texts in count, order and
literal content, while styling only wraps each text in terminal control
codes: stripping the control codes from the styled output yields exactly the
plain output. -/
theorem c2_round_trip (p : Page) (sheet : StyleSheet)
    (hfence : ∀ ex ∈ p.examples, chPre fenceChars ex.2.data = false) :
    tokenize (pageLines p) = .ok (⟨.Done, false⟩, pageTokens p) ∧
    print_lines sheet false (pageTokens p) =
      p.name :: "" :: (p.descriptions ++ "" :: exampleTexts p.examples) ∧
    ((∀ t ∈ pageTokens p, tokNoEsc t = true) →
      (print_lines sheet true (pageTokens p)).map stripAnsi =
        print_lines sheet false (pageTokens p)) := by
  refine ⟨tokenize_page p hfence, ?_, fun h => print_lines_strip sheet _ h⟩
  have hH : renderToken sheet false (.Heading p.name) = p.name := rfl
  have hB : renderToken sheet false .Blank = "" := rfl
  have hD : ∀ ds : List String,
      (ds.map .Description).map (renderToken sheet false) = ds := by
    intro ds
    rw [List.map_map]
    have hc : (renderToken sheet false ∘ LineToken.Description) = id :=
      funext fun d => rfl
    rw [hc, List.map_id]
  unfold print_lines
  simp only [pageTokens, List.map_cons, List.map_append, hH, hB, hD,
    render_exampleTokens]

theorem c2_round_trip_witness :
    tokenize (pageLines ⟨"tar", ["archive tool"],
        [("pack", "tar cf \x7b\x7btarget\x7d\x7d")]⟩) =
      .ok (⟨.Done, false⟩, pageTokens ⟨"tar", ["archive tool"],
        [("pack", "tar cf \x7b\x7btarget\x7d\x7d")]⟩) ∧
    (print_lines ⟨⟨some .Red, true, false⟩, ⟨none, false, false⟩, ⟨some .Green, false, true⟩,
        ⟨some .Blue, false, false⟩, ⟨some .Cyan, false, true⟩⟩ true
      (pageTokens ⟨"tar", ["archive tool"],
        [("pack", "tar cf \x7b\x7btarget\x7d\x7d")]⟩)).map stripAnsi =
      print_lines ⟨⟨some .Red, true, false⟩, ⟨none, false, false⟩, ⟨some .Green, false, true⟩,
        ⟨some .Blue, false, false⟩, ⟨some .Cyan, false, true⟩⟩ false
      (pageTokens ⟨"tar", ["archive tool"],
        [("pack", "tar cf \x7b\x7btarget\x7d\x7d")]⟩) ∧
    print_lines ⟨⟨some .Red, true, false⟩, ⟨none, false, false⟩, ⟨some .Green, false, true⟩,
        ⟨some .Blue, false, false⟩, ⟨some .Cyan, false, true⟩⟩ false
      (pageTokens ⟨"tar", ["archive tool"],
        [("pack", "tar cf \x7b\x7btarget\x7d\x7d")]⟩) =
      ["tar", "", "archive tool", "", "pack", "tar cf target"] :=
  ⟨(c2_round_trip ⟨"tar", ["archive tool"], [("pack", "tar cf \x7b\x7btarget\x7d\x7d")]⟩
      ⟨⟨some .Red, true, false⟩, ⟨none, false, false⟩, ⟨some .Green, false, true⟩,
        ⟨some .Blue, false, false⟩, ⟨some .Cyan, false, true⟩⟩ (by decide)).1,
    (c2_round_trip ⟨"tar", ["archive tool"], [("pack", "tar cf \x7b\x7btarget\x7d\x7d")]⟩
      ⟨⟨some .Red, true, false⟩, ⟨none, false, false⟩, ⟨some .Green, false, true⟩,
        ⟨some .Blue, false, false⟩, ⟨some .Cyan, false, true⟩⟩ (by decide)).2.2 (by decide),
    by decide⟩

end Tealdeer
